import Mathlib

/-!
Verification of the Airplay chunked file-transfer and room-lifecycle core.

The definitions below are a shallow embedding of the TypeScript sources:
  * `src/server/db/sqlite-db.ts` (`SQLiteDatabase`): the SQLite-backed store
    used by the live server routes (`src/server/db/database.ts` wires every
    route to it).  The `file_chunks` table has primary key
    `(file_id, chunk_index)` and is read with `ORDER BY chunk_index`, so one
    file's chunk rows are modelled as an association list kept sorted by
    index; `INSERT OR REPLACE` is the sorted upsert.
  * `src/server/db/in-memory-db.ts` (`InMemoryDB`): the legacy in-memory
    variant (still referenced by the old worker routes).
  * `src/server/routes/file-routes.ts`, `room-routes`, `user-routes`: the
    Hono handlers, modelled as pure state transformers returning the HTTP
    status/body essentials.
  * `src/server/utils/sanitization.ts`: `sanitizeFilename` and
    `isFilenameSafe`, embedded over `List Char` with JavaScript regex and
    `trim` semantics spelled out.

`better-sqlite3` enables foreign-key enforcement on connection, so a chunk
insert whose `file_id` has no `file_uploads` row fails the FK constraint and
the surrounding transaction rolls back; this is modelled by `addFileChunk`
returning `Except`.  Machine numbers are modelled as `Nat` (all quantities
involved are non-negative and far from any overflow boundary).
-/

/-- Raw chunk bytes (a `Buffer` / `ArrayBuffer` body), one `Nat` per byte. -/
abbrev Bytes := List Nat

/-- The chunk rows of one file: `file_chunks` rows `(chunk_index, chunk_data)`
for a fixed `file_id`, kept sorted by `chunk_index` (the table's primary-key
order, which is also the `ORDER BY chunk_index` read order). -/
abbrev ChunkRows := List (Nat × Bytes)

/-- `INSERT OR REPLACE INTO file_chunks` for one file: upsert keyed by
`chunk_index` into the sorted row list (last write per index wins). -/
def upsertChunk (idx : Nat) (b : Bytes) : ChunkRows → ChunkRows
  | [] => [(idx, b)]
  | (k, v) :: rest =>
    if idx < k then (idx, b) :: (k, v) :: rest
    else if idx = k then (idx, b) :: rest
    else (k, v) :: upsertChunk idx b rest

/-- The chunk indices stored for one file. -/
def chunkKeys (rows : ChunkRows) : List Nat := rows.map Prod.fst

/-- Sortedness invariant of a file's chunk rows (strictly increasing
`chunk_index`, i.e. the primary-key order with no duplicate index). -/
def RowsSorted (rows : ChunkRows) : Prop :=
  rows.Pairwise (fun p q => p.1 < q.1)

theorem chunkKeys_cons (p : Nat × Bytes) (l : ChunkRows) :
    chunkKeys (p :: l) = p.1 :: chunkKeys l := rfl

theorem chunkKeys_upsert (idx : Nat) (b : Bytes) (rows : ChunkRows) (k : Nat) :
    k ∈ chunkKeys (upsertChunk idx b rows) ↔ k = idx ∨ k ∈ chunkKeys rows := by
  induction rows with
  | nil => simp [upsertChunk, chunkKeys]
  | cons p rest ih =>
    obtain ⟨pk, pv⟩ := p
    by_cases h1 : idx < pk
    · simp only [upsertChunk, if_pos h1, chunkKeys_cons, List.mem_cons]
    · by_cases h2 : idx = pk
      · simp only [upsertChunk, if_neg h1, if_pos h2, chunkKeys_cons, List.mem_cons]
        constructor
        · intro h
          rcases h with h | h
          · exact Or.inl h
          · exact Or.inr (Or.inr h)
        · intro h
          rcases h with h | h | h
          · exact Or.inl h
          · exact Or.inl (by omega)
          · exact Or.inr h
      · simp only [upsertChunk, if_neg h1, if_neg h2, chunkKeys_cons, List.mem_cons, ih]
        tauto

theorem rowsSorted_upsert (idx : Nat) (b : Bytes) (rows : ChunkRows)
    (h : RowsSorted rows) : RowsSorted (upsertChunk idx b rows) := by
  induction rows with
  | nil => simp [upsertChunk, RowsSorted]
  | cons p rest ih =>
    obtain ⟨pk, pv⟩ := p
    rw [RowsSorted, List.pairwise_cons] at h
    obtain ⟨hhead, htail⟩ := h
    by_cases h1 : idx < pk
    · rw [RowsSorted]
      simp only [upsertChunk, if_pos h1]
      refine List.Pairwise.cons ?_ (List.Pairwise.cons hhead htail)
      intro q hq
      rcases List.mem_cons.mp hq with hq | hq
      · simpa [hq] using h1
      · exact lt_trans h1 (hhead q hq)
    · by_cases h2 : idx = pk
      · rw [RowsSorted]
        simp only [upsertChunk, if_neg h1, if_pos h2]
        refine List.Pairwise.cons ?_ htail
        intro q hq
        have := hhead q hq
        omega
      · rw [RowsSorted]
        simp only [upsertChunk, if_neg h1, if_neg h2]
        refine List.Pairwise.cons ?_ (ih htail)
        intro q hq
        have hlt : pk < idx := by omega
        have hmem := (chunkKeys_upsert idx b rest q.1).mp
        have : q.1 ∈ chunkKeys (upsertChunk idx b rest) := by
          simp [chunkKeys]
          exact ⟨q.2, by simpa using hq⟩
        rcases hmem this with h | h
        · omega
        · rcases List.mem_map.mp h with ⟨q', hq', hq'eq⟩
          have := hhead q' hq'
          omega

theorem rowsSorted_keys_nodup (rows : ChunkRows) (h : RowsSorted rows) :
    (chunkKeys rows).Nodup := by
  induction rows with
  | nil => simp [chunkKeys]
  | cons p rest ih =>
    rw [RowsSorted, List.pairwise_cons] at h
    obtain ⟨hhead, htail⟩ := h
    simp only [chunkKeys, List.map_cons, List.nodup_cons]
    constructor
    · intro hmem
      rcases List.mem_map.mp hmem with ⟨q, hq, hqeq⟩
      have := hhead q hq
      omega
    · exact ih htail

theorem values_upsert (idx : Nat) (b : Bytes) (rows : ChunkRows)
    (P : Nat → Bytes → Prop) (hall : ∀ p ∈ rows, P p.1 p.2) (hnew : P idx b) :
    ∀ p ∈ upsertChunk idx b rows, P p.1 p.2 := by
  induction rows with
  | nil =>
    intro p hp
    simp only [upsertChunk, List.mem_singleton] at hp
    simpa [hp] using hnew
  | cons q rest ih =>
    obtain ⟨qk, qv⟩ := q
    intro p hp
    by_cases h1 : idx < qk
    · simp only [upsertChunk, if_pos h1, List.mem_cons] at hp
      rcases hp with hp | hp | hp
      · simpa [hp] using hnew
      · exact hall _ (by rw [hp]; exact List.mem_cons_self _ _)
      · exact hall _ (List.mem_cons_of_mem _ hp)
    · by_cases h2 : idx = qk
      · simp only [upsertChunk, if_neg h1, if_pos h2, List.mem_cons] at hp
        rcases hp with hp | hp
        · simpa [hp] using hnew
        · exact hall _ (List.mem_cons_of_mem _ hp)
      · simp only [upsertChunk, if_neg h1, if_neg h2, List.mem_cons] at hp
        rcases hp with hp | hp
        · exact hall _ (by rw [hp]; exact List.mem_cons_self _ _)
        · exact ih (fun r hr => hall r (List.mem_cons_of_mem _ hr)) p hp

/-- Two strictly increasing lists of naturals with the same members are
equal. -/
theorem sorted_nat_ext : ∀ (l₁ l₂ : List Nat), l₁.Pairwise (· < ·) →
    l₂.Pairwise (· < ·) → (∀ k, k ∈ l₁ ↔ k ∈ l₂) → l₁ = l₂ := by
  intro l₁
  induction l₁ with
  | nil =>
    intro l₂ _ _ hmem
    cases l₂ with
    | nil => rfl
    | cons b t => exact absurd ((hmem b).mpr (by simp)) (by simp)
  | cons a t₁ ih =>
    intro l₂ h₁ h₂ hmem
    cases l₂ with
    | nil => exact absurd ((hmem a).mp (by simp)) (by simp)
    | cons b t₂ =>
      rw [List.pairwise_cons] at h₁ h₂
      obtain ⟨ha, ht₁⟩ := h₁
      obtain ⟨hb, ht₂⟩ := h₂
      have hab : a = b := by
        have h1 := (hmem a).mp (by simp)
        have h2 := (hmem b).mpr (by simp)
        rcases List.mem_cons.mp h1 with h | h
        · exact h
        · rcases List.mem_cons.mp h2 with h' | h'
          · omega
          · have := ha b h'
            have := hb a h
            omega
      subst hab
      have htmem : ∀ k, k ∈ t₁ ↔ k ∈ t₂ := by
        intro k
        constructor
        · intro hk
          have := (hmem k).mp (by simp [hk])
          rcases List.mem_cons.mp this with h | h
          · have := ha k hk; omega
          · exact h
        · intro hk
          have := (hmem k).mpr (by simp [hk])
          rcases List.mem_cons.mp this with h | h
          · have := hb k hk; omega
          · exact h
      rw [ih t₂ ht₁ ht₂ htmem]

/-! ### Association-list helpers (rows keyed by `file_id`) -/

/-- `SELECT ... WHERE file_id = fid` returning the first matching row group. -/
def assocFind {α : Type} (fid : String) : List (String × α) → Option α
  | [] => none
  | p :: t => if p.1 == fid then some p.2 else assocFind fid t

/-- Replace the row group of `fid` (or append it when absent). -/
def assocSet {α : Type} (fid : String) (v : α) (l : List (String × α)) :
    List (String × α) :=
  if (assocFind fid l).isSome then
    l.map (fun p => if p.1 == fid then (fid, v) else p)
  else l ++ [(fid, v)]

/-- `UPDATE ... WHERE file_id = fid`: apply `f` to the matching row group. -/
def assocUpdate {α : Type} (fid : String) (f : α → α) (l : List (String × α)) :
    List (String × α) :=
  l.map (fun p => if p.1 == fid then (p.1, f p.2) else p)

theorem assocFind_map_set {α : Type} (fid : String) (v : α) :
    ∀ l : List (String × α), (assocFind fid l).isSome →
      assocFind fid (l.map (fun p => if p.1 == fid then (fid, v) else p)) = some v := by
  intro l
  induction l with
  | nil => simp [assocFind]
  | cons p t ih =>
    intro h
    by_cases hp : p.1 == fid
    · simp [assocFind, hp]
    · simp only [assocFind, if_neg hp] at h
      simpa [assocFind, hp] using ih h

theorem assocFind_append_self {α : Type} (fid : String) (v : α) :
    ∀ l : List (String × α), ¬(assocFind fid l).isSome →
      assocFind fid (l ++ [(fid, v)]) = some v := by
  intro l
  induction l with
  | nil => simp [assocFind]
  | cons p t ih =>
    intro h
    by_cases hp : p.1 == fid
    · simp [assocFind, hp] at h
    · simp only [assocFind, if_neg hp] at h
      simpa [assocFind, hp] using ih h

theorem assocFind_assocSet_self {α : Type} (fid : String) (v : α)
    (l : List (String × α)) : assocFind fid (assocSet fid v l) = some v := by
  unfold assocSet
  by_cases h : (assocFind fid l).isSome
  · rw [if_pos h]
    exact assocFind_map_set fid v l h
  · rw [if_neg h]
    exact assocFind_append_self fid v l h

theorem assocSet_mem {α : Type} (fid : String) (v : α) (l : List (String × α))
    (p : String × α) (hp : p ∈ assocSet fid v l) : p = (fid, v) ∨ p ∈ l := by
  unfold assocSet at hp
  by_cases h : (assocFind fid l).isSome
  · rw [if_pos h] at hp
    rcases List.mem_map.mp hp with ⟨q, hq, hqeq⟩
    by_cases hq1 : q.1 == fid
    · rw [if_pos hq1] at hqeq
      exact Or.inl hqeq.symm
    · rw [if_neg hq1] at hqeq
      exact Or.inr (hqeq ▸ hq)
  · rw [if_neg h] at hp
    rcases List.mem_append.mp hp with hp | hp
    · exact Or.inr hp
    · exact Or.inl (by simpa using hp)

theorem assocFind_assocUpdate_self {α : Type} (fid : String) (f : α → α)
    (l : List (String × α)) :
    assocFind fid (assocUpdate fid f l) = (assocFind fid l).map f := by
  induction l with
  | nil => simp [assocFind, assocUpdate]
  | cons p t ih =>
    by_cases hp : p.1 == fid
    · have hfid : p.1 = fid := by simpa using hp
      simp [assocUpdate, assocFind, hp, hfid]
    · simp only [assocUpdate, List.map_cons, if_neg hp] at ih ⊢
      simpa [assocFind, hp] using ih

/-! ### SQLiteDatabase file-upload operations (`sqlite-db.ts`) -/

/-- `file.{name,size,type}` metadata as sent by the client and stored
(JSON-serialised) in `file_uploads.metadata`. -/
structure FileMeta where
  name : List Char
  size : Nat
  type : List Char
deriving DecidableEq, Repr

/-- One `file_uploads` row: `metadata`, `total_chunks`, `received_chunks`. -/
structure UploadRow where
  metadata : FileMeta
  totalChunks : Nat
  receivedChunks : Nat
deriving DecidableEq, Repr

abbrev FileId := String

/-- The chunk-upload-relevant part of the SQLite database: the
`file_uploads` table and the `file_chunks` table (grouped by `file_id`,
each group sorted by `chunk_index`). -/
structure SQLiteState where
  uploads : List (FileId × UploadRow)
  chunks : List (FileId × ChunkRows)
deriving DecidableEq, Repr

/-- SQLite / better-sqlite3 statement errors surfaced to route handlers. -/
inductive DbErr where
  | foreignKeyViolation
  | uniqueViolation
deriving DecidableEq, Repr

def lookupUpload (fid : FileId) (st : SQLiteState) : Option UploadRow :=
  assocFind fid st.uploads

def chunksFor (fid : FileId) (st : SQLiteState) : ChunkRows :=
  (assocFind fid st.chunks).getD []

def setChunks (fid : FileId) (rows : ChunkRows) (st : SQLiteState) : SQLiteState :=
  { st with chunks := assocSet fid rows st.chunks }

def updateReceived (fid : FileId) (n : Nat) (st : SQLiteState) : SQLiteState :=
  { st with uploads :=
      assocUpdate fid (fun row => { row with receivedChunks := n }) st.uploads }

/-- `SQLiteDatabase.initiateFileUpload`: `INSERT INTO file_uploads
(file_id, metadata, total_chunks)` — `received_chunks` defaults to 0. -/
def initiateFileUpload (fid : FileId) (meta : FileMeta) (total : Nat)
    (st : SQLiteState) : SQLiteState :=
  { st with uploads := st.uploads ++ [(fid, ⟨meta, total, 0⟩)] }

/-- Body of the `SQLiteDatabase.addFileChunk` transaction once the chunk
insert's foreign-key check has passed: `INSERT OR REPLACE` the chunk,
`UPDATE file_uploads SET received_chunks = (SELECT COUNT(*) FROM file_chunks
WHERE file_id = ?)`, then `SELECT received_chunks, total_chunks` and return
`received_chunks >= total_chunks` (`false` for a missing row, matching the
JavaScript falsiness of `undefined`). -/
def addFileChunkState (fid : FileId) (idx : Nat) (b : Bytes) (st : SQLiteState) :
    SQLiteState :=
  updateReceived fid (upsertChunk idx b (chunksFor fid st)).length
    (setChunks fid (upsertChunk idx b (chunksFor fid st)) st)

def addFileChunkCore (fid : FileId) (idx : Nat) (b : Bytes) (st : SQLiteState) :
    Bool × SQLiteState :=
  match lookupUpload fid (addFileChunkState fid idx b st) with
  | some row =>
    (decide (row.totalChunks ≤ row.receivedChunks), addFileChunkState fid idx b st)
  | none => (false, addFileChunkState fid idx b st)

/-- `SQLiteDatabase.addFileChunk`: better-sqlite3 enforces foreign keys, so
inserting a chunk whose `file_id` has no `file_uploads` row throws a
constraint error and the transaction rolls back. -/
def addFileChunk (fid : FileId) (idx : Nat) (b : Bytes) (st : SQLiteState) :
    Except DbErr (Bool × SQLiteState) :=
  if (lookupUpload fid st).isNone then .error .foreignKeyViolation
  else .ok (addFileChunkCore fid idx b st)

/-- `SQLiteDatabase.getCompleteFile`: `SELECT chunk_data FROM file_chunks
WHERE file_id = ? ORDER BY chunk_index`, `undefined` when no rows, else
`Buffer.concat` of the rows in index order.  There is no missing-index
check in this implementation. -/
def getCompleteFile (fid : FileId) (st : SQLiteState) : Option Bytes :=
  let rows := chunksFor fid st
  if rows.isEmpty then none else some (rows.map Prod.snd).flatten

/-- `SQLiteDatabase.deleteFileUpload`: deletes the `file_uploads` row; the
chunk rows follow via `ON DELETE CASCADE`. -/
def deleteFileUpload (fid : FileId) (st : SQLiteState) : SQLiteState :=
  { uploads := st.uploads.filter (fun p => p.1 != fid),
    chunks := st.chunks.filter (fun p => p.1 != fid) }

/-- Well-formedness: every file's chunk rows are in primary-key order. -/
def WF (st : SQLiteState) : Prop := ∀ p ∈ st.chunks, RowsSorted p.2

/-! ### Facts about a single chunk write -/

theorem assocFind_mem {α : Type} (fid : String) :
    ∀ (l : List (String × α)) (v : α), assocFind fid l = some v → (fid, v) ∈ l := by
  intro l
  induction l with
  | nil => intro v h; simp [assocFind] at h
  | cons p t ih =>
    intro v h
    by_cases hp : p.1 == fid
    · have hfid : p.1 = fid := by simpa using hp
      simp only [assocFind, if_pos hp, Option.some.injEq] at h
      rw [← h, ← hfid]
      exact List.mem_cons_self _ _
    · simp only [assocFind, if_neg hp] at h
      exact List.mem_cons_of_mem _ (ih v h)

theorem sorted_chunksFor (fid : FileId) (st : SQLiteState) (h : WF st) :
    RowsSorted (chunksFor fid st) := by
  unfold chunksFor
  cases hfind : assocFind fid st.chunks with
  | none => simp [RowsSorted]
  | some rows =>
    simpa using h (fid, rows) (assocFind_mem fid st.chunks rows hfind)

theorem chunksFor_addState (fid : FileId) (idx : Nat) (b : Bytes)
    (st : SQLiteState) :
    chunksFor fid (addFileChunkState fid idx b st) =
      upsertChunk idx b (chunksFor fid st) := by
  unfold addFileChunkState updateReceived setChunks chunksFor
  simp [assocFind_assocSet_self]

theorem wf_addState (fid : FileId) (idx : Nat) (b : Bytes) (st : SQLiteState)
    (h : WF st) : WF (addFileChunkState fid idx b st) := by
  intro p hp
  unfold addFileChunkState updateReceived setChunks at hp
  simp only at hp
  rcases assocSet_mem _ _ _ p hp with hpe | hpe
  · rw [hpe]
    exact rowsSorted_upsert idx b _ (sorted_chunksFor fid st h)
  · exact h p hpe

theorem lookup_addState (fid : FileId) (idx : Nat) (b : Bytes) (st : SQLiteState) :
    lookupUpload fid (addFileChunkState fid idx b st) =
      (lookupUpload fid st).map
        (fun row =>
          { row with receivedChunks := (upsertChunk idx b (chunksFor fid st)).length }) := by
  unfold addFileChunkState updateReceived setChunks lookupUpload
  simp [assocFind_assocUpdate_self]

theorem addFileChunkCore_snd (fid : FileId) (idx : Nat) (b : Bytes)
    (st : SQLiteState) :
    (addFileChunkCore fid idx b st).2 = addFileChunkState fid idx b st := by
  unfold addFileChunkCore
  cases lookupUpload fid (addFileChunkState fid idx b st) <;> rfl

theorem addFileChunkCore_fst (fid : FileId) (idx : Nat) (b : Bytes)
    (st : SQLiteState) (row : UploadRow) (hrow : lookupUpload fid st = some row) :
    (addFileChunkCore fid idx b st).1 =
      decide (row.totalChunks ≤ (upsertChunk idx b (chunksFor fid st)).length) := by
  unfold addFileChunkCore
  rw [lookup_addState, hrow]
  rfl

/-- Folding a whole list of chunk submissions `(index, bytes)` through the
`addFileChunk` transaction body (each submission's response value is the
one the route returns for that call). -/
def applyChunksCore (fid : FileId) (subs : List (Nat × Bytes)) (st : SQLiteState) :
    SQLiteState :=
  subs.foldl (fun s p => (addFileChunkCore fid p.1 p.2 s).2) st

theorem applyChunksCore_nil (fid : FileId) (st : SQLiteState) :
    applyChunksCore fid [] st = st := rfl

theorem applyChunksCore_cons (fid : FileId) (p : Nat × Bytes)
    (subs : List (Nat × Bytes)) (st : SQLiteState) :
    applyChunksCore fid (p :: subs) st =
      applyChunksCore fid subs (addFileChunkState fid p.1 p.2 st) := by
  unfold applyChunksCore
  rw [List.foldl_cons, addFileChunkCore_snd]

theorem applyChunksCore_spec (fid : FileId) (subs : List (Nat × Bytes)) :
    ∀ st : SQLiteState, WF st →
      WF (applyChunksCore fid subs st) ∧
      (∀ k, k ∈ chunkKeys (chunksFor fid (applyChunksCore fid subs st)) ↔
        (k ∈ subs.map Prod.fst ∨ k ∈ chunkKeys (chunksFor fid st))) ∧
      (∀ row : UploadRow, lookupUpload fid st = some row →
        ∃ n, lookupUpload fid (applyChunksCore fid subs st) =
          some { row with receivedChunks := n }) ∧
      (∀ f : Nat → Bytes, (∀ p ∈ chunksFor fid st, p.2 = f p.1) →
        (∀ q ∈ subs, q.2 = f q.1) →
        ∀ p ∈ chunksFor fid (applyChunksCore fid subs st), p.2 = f p.1) := by
  induction subs with
  | nil =>
    intro st hwf
    refine ⟨hwf, by simp [applyChunksCore_nil], ?_, ?_⟩
    · intro row hrow
      exact ⟨row.receivedChunks, by simpa [applyChunksCore_nil] using hrow⟩
    · intro f hall _ p hp
      exact hall p (by simpa [applyChunksCore_nil] using hp)
  | cons a t ih =>
    intro st hwf
    rw [applyChunksCore_cons]
    have hwf' := wf_addState fid a.1 a.2 st hwf
    obtain ⟨ihwf, ihkeys, ihlook, ihvals⟩ := ih (addFileChunkState fid a.1 a.2 st) hwf'
    refine ⟨ihwf, ?_, ?_, ?_⟩
    · intro k
      rw [ihkeys k, chunksFor_addState, chunkKeys_upsert]
      simp only [List.map_cons, List.mem_cons]
      tauto
    · intro row hrow
      have : lookupUpload fid (addFileChunkState fid a.1 a.2 st) =
          some { row with receivedChunks := (upsertChunk a.1 a.2 (chunksFor fid st)).length } := by
        rw [lookup_addState, hrow]
        rfl
      obtain ⟨n, hn⟩ := ihlook _ this
      exact ⟨n, hn⟩
    · intro f hall hsubs p hp
      refine ihvals f ?_ (fun q hq => hsubs q (List.mem_cons_of_mem _ hq)) p hp
      rw [chunksFor_addState]
      exact values_upsert a.1 a.2 _ (fun k v => v = f k) hall
        (hsubs a (List.mem_cons_self _ _))

/-! ### Distinct-index counting and canonical stores -/

theorem chunkKeys_length (rows : ChunkRows) :
    (chunkKeys rows).length = rows.length := List.length_map _ _

theorem sorted_length_eq_card (rows : ChunkRows) (h : RowsSorted rows) :
    rows.length = (chunkKeys rows).toFinset.card := by
  have hn := rowsSorted_keys_nodup rows h
  rw [List.toFinset_card_of_nodup hn, chunkKeys_length]

theorem upsert_keys_toFinset (idx : Nat) (b : Bytes) (rows : ChunkRows) :
    (chunkKeys (upsertChunk idx b rows)).toFinset =
      insert idx (chunkKeys rows).toFinset := by
  ext k
  simp only [List.mem_toFinset, Finset.mem_insert, chunkKeys_upsert]

/-- A store in primary-key order whose keys cover exactly `[a, n)` and whose
value at `i` is `f i` is the literal list of those rows. -/
theorem sorted_canonical (f : Nat → Bytes) :
    ∀ (l : ChunkRows) (a n : Nat), RowsSorted l →
      (∀ p ∈ l, a ≤ p.1 ∧ p.1 < n ∧ p.2 = f p.1) →
      (∀ i, a ≤ i → i < n → ∃ p ∈ l, p.1 = i) →
      l = (List.range' a (n - a)).map (fun i => (i, f i)) := by
  intro l
  induction l with
  | nil =>
    intro a n _ _ hcov
    have hna : n - a = 0 := by
      by_contra hne
      obtain ⟨p, hp, _⟩ := hcov a (le_refl a) (by omega)
      exact absurd hp (List.not_mem_nil p)
    rw [hna]
    rfl
  | cons p t ih =>
    intro a n hs hbound hcov
    obtain ⟨hpa, hpn, hpv⟩ := hbound p (List.mem_cons_self _ _)
    rw [RowsSorted, List.pairwise_cons] at hs
    obtain ⟨hhead, htail⟩ := hs
    have hp1 : p.1 = a := by
      by_contra hne
      obtain ⟨q, hq, hq1⟩ := hcov a (le_refl a) (by omega)
      rcases List.mem_cons.mp hq with h | h
      · rw [h] at hq1
        omega
      · have := hhead q h
        omega
    have han : a < n := by omega
    have hrange : n - a = (n - (a + 1)) + 1 := by omega
    rw [hrange]
    have hrec := ih (a + 1) n htail ?_ ?_
    · rw [List.range', List.map_cons, ← hrec]
      have hpe : p = (a, f a) := by
        obtain ⟨p1, p2⟩ := p
        simp only at hp1 hpv
        rw [hp1] at hpv ⊢
        rw [hpv]
      rw [← hpe]
    · intro q hq
      have h1 := hhead q hq
      have h2 := hbound q (List.mem_cons_of_mem _ hq)
      exact ⟨by omega, h2.2.1, h2.2.2⟩
    · intro i hi1 hi2
      obtain ⟨q, hq, hq1⟩ := hcov i (by omega) hi2
      rcases List.mem_cons.mp hq with h | h
      · rw [h] at hq1
        omega
      · exact ⟨q, h, hq1⟩

/-! ### Client-side chunking (`ChatPanel.tsx`) and reassembly -/

/-- `const CHUNK_SIZE = 512 * 1024` (identical constant on client and
server). -/
def CHUNK_SIZE : Nat := 512 * 1024

/-- `Math.ceil(size / CHUNK_SIZE)` for a natural `size`, as computed by both
the initiate route and the uploading client. -/
def totalChunksFor (size : Nat) : Nat := (size + CHUNK_SIZE - 1) / CHUNK_SIZE

/-- The client's chunk `i`: `file.slice(i * CHUNK_SIZE, (i + 1) * CHUNK_SIZE)`
(`slice` clamps at the end of the file). -/
def clientChunk (file : Bytes) (i : Nat) : Bytes :=
  (file.drop (i * CHUNK_SIZE)).take CHUNK_SIZE

theorem lt_div_mul_add_of_pos {a b : Nat} (hb : 0 < b) : a < a / b * b + b := by
  conv_lhs => rw [← Nat.div_add_mod a b]
  rw [mul_comm]
  exact Nat.add_lt_add_left (Nat.mod_lt a hb) _

theorem size_le_totalChunks_mul (size : Nat) :
    size ≤ totalChunksFor size * CHUNK_SIZE := by
  unfold totalChunksFor
  rcases Nat.eq_zero_or_pos size with h | h
  · simp [h]
  · have hk : 0 < CHUNK_SIZE := by norm_num [CHUNK_SIZE]
    have h1 : (size + CHUNK_SIZE - 1) / CHUNK_SIZE = (size - 1) / CHUNK_SIZE + 1 := by
      have he : size + CHUNK_SIZE - 1 = (size - 1) + 1 * CHUNK_SIZE := by omega
      rw [he, Nat.add_mul_div_right _ _ hk]
    have h4 := lt_div_mul_add_of_pos (a := size - 1) hk
    have h5 : size ≤ (size - 1) / CHUNK_SIZE * CHUNK_SIZE + CHUNK_SIZE :=
      calc size = size - 1 + 1 := by omega
        _ ≤ (size - 1) / CHUNK_SIZE * CHUNK_SIZE + CHUNK_SIZE := Nat.succ_le_of_lt h4
    rw [h1, Nat.add_mul, one_mul]
    exact h5

theorem one_le_totalChunks (size : Nat) (h : 0 < size) :
    1 ≤ totalChunksFor size := by
  unfold totalChunksFor
  have hk : 0 < CHUNK_SIZE := by norm_num [CHUNK_SIZE]
  rw [Nat.one_le_div_iff hk]
  omega

/-- Concatenating the `n` client chunks of `l` (in index order) restores `l`,
for any chunk size `k > 0` with `l.length ≤ n * k`. -/
theorem flatten_chunks (k : Nat) :
    ∀ (n : Nat) (l : Bytes), l.length ≤ n * k →
      ((List.range n).map (fun i => (l.drop (i * k)).take k)).flatten = l := by
  intro n
  induction n with
  | zero =>
    intro l h
    simp only [Nat.zero_mul, Nat.le_zero] at h
    have : l = [] := List.eq_nil_of_length_eq_zero h
    simp [this]
  | succ n ih =>
    intro l h
    rw [List.range_succ_eq_map, List.map_cons, List.map_map, List.flatten_cons]
    have hstep : ∀ i : Nat,
        (l.drop (Nat.succ i * k)).take k = ((l.drop k).drop (i * k)).take k := by
      intro i
      rw [List.drop_drop, Nat.succ_mul, Nat.add_comm]
    have hmap : (List.range n).map ((fun i => (l.drop (i * k)).take k) ∘ Nat.succ) =
        (List.range n).map (fun i => ((l.drop k).drop (i * k)).take k) := by
      refine List.map_congr_left ?_
      intro i _
      exact hstep i
    have hlen : (l.drop k).length ≤ n * k := by
      have h2 : (n + 1) * k = n * k + k := by ring
      simp only [List.length_drop]
      omega
    rw [hmap, ih (l.drop k) hlen]
    simp [List.take_append_drop]

/-! ### Sanitizer / PathGuard (`sanitization.ts`) -/

/-- JavaScript whitespace: the `\s` regex class and the set removed by
`String.prototype.trim` (ASCII whitespace, NBSP, the Unicode space
separators, line/paragraph separators and the BOM). -/
def jsIsWhite (c : Char) : Bool :=
  decide (c.toNat = 9 ∨ c.toNat = 10 ∨ c.toNat = 11 ∨ c.toNat = 12 ∨
    c.toNat = 13 ∨ c.toNat = 32 ∨ c.toNat = 160 ∨ c.toNat = 0x1680 ∨
    (0x2000 ≤ c.toNat ∧ c.toNat ≤ 0x200A) ∨ c.toNat = 0x2028 ∨
    c.toNat = 0x2029 ∨ c.toNat = 0x202F ∨ c.toNat = 0x205F ∨
    c.toNat = 0x3000 ∨ c.toNat = 0xFEFF)

/-- The JavaScript `\w` regex class: `[A-Za-z0-9_]`. -/
def jsIsWordChar (c : Char) : Bool :=
  decide (('a' ≤ c ∧ c ≤ 'z') ∨ ('A' ≤ c ∧ c ≤ 'Z') ∨
    ('0' ≤ c ∧ c ≤ '9') ∨ c = '_')

/-- `String.prototype.trim`. -/
def jsTrim (l : List Char) : List Char :=
  ((l.dropWhile jsIsWhite).reverse.dropWhile jsIsWhite).reverse

/-- `str.lastIndexOf('.')` (as `none` for the JavaScript `-1`). -/
def lastIndexOfDot (l : List Char) : Option Nat :=
  ((l.enum.filter (fun p => p.2 == '.')).map Prod.fst).getLast?

/-- The `lastDotIndex > 0 ? substring split : whole name` step of
`sanitizeFilename`: separate base name and extension. -/
def splitNameExt (l : List Char) : List Char × List Char :=
  match lastIndexOfDot l with
  | some j => if 0 < j then (l.take j, l.drop j) else (l, [])
  | none => (l, [])

/-- The `[/\\:*?"<>|]` class replaced by `_` in the base name. -/
def isDangerousChar (c : Char) : Bool :=
  ['/', '\\', ':', '*', '?', '\"', '<', '>', '|'].contains c

def dotFlush (n : Nat) : List Char :=
  if n = 0 then [] else if n = 1 then ['.'] else ['_']

def collapseDotStep (acc : List Char × Nat) (c : Char) : List Char × Nat :=
  if c == '.' then (acc.1, acc.2 + 1) else (acc.1 ++ dotFlush acc.2 ++ [c], 0)

/-- `replace(/\.{2,}/g, '_')`: each maximal run of two or more dots becomes
one underscore; single dots stay. -/
def collapseDotRuns (l : List Char) : List Char :=
  let r := l.foldl collapseDotStep ([], 0)
  r.1 ++ dotFlush r.2

def wsFlush (n : Nat) : List Char := if n = 0 then [] else [' ']

def collapseWsStep (acc : List Char × Nat) (c : Char) : List Char × Nat :=
  if jsIsWhite c then (acc.1, acc.2 + 1) else (acc.1 ++ wsFlush acc.2 ++ [c], 0)

/-- `replace(/\s+/g, ' ')`: each maximal whitespace run becomes one space. -/
def collapseWsRuns (l : List Char) : List Char :=
  let r := l.foldl collapseWsStep ([], 0)
  r.1 ++ wsFlush r.2

def extDotFlush (n : Nat) : List Char := if n = 0 then [] else ['.']

def collapseExtDotStep (acc : List Char × Nat) (c : Char) : List Char × Nat :=
  if c == '.' then (acc.1, acc.2 + 1) else (acc.1 ++ extDotFlush acc.2 ++ [c], 0)

/-- `replace(/\.{2,}/g, '.')` as applied to the extension. -/
def collapseExtDotRuns (l : List Char) : List Char :=
  let r := l.foldl collapseExtDotStep ([], 0)
  r.1 ++ extDotFlush r.2

/-- The base-name pipeline of `sanitizeFilename`: dangerous characters to
`_`, dot-run collapse, control-character removal, whitespace collapse,
leading-dot removal, then everything outside `[\w\s.-]` to `_` — in exactly
the source's order. -/
def sanitizeBase (l : List Char) : List Char :=
  let s1 := l.map (fun c => if isDangerousChar c then '_' else c)
  let s2 := collapseDotRuns s1
  let s3 := s2.filter (fun c => decide (31 < c.toNat))
  let s4 := collapseWsRuns s3
  let s5 := s4.dropWhile (fun c => c == '.')
  s5.map (fun c =>
    if jsIsWordChar c || jsIsWhite c || c == '.' || c == '-' then c else '_')

def extStartsDot : List Char → Bool
  | '.' :: _ => true
  | _ => false

/-- The extension pipeline of `sanitizeFilename`: keep `[\w.]`, cap at 10
characters, ensure a leading dot, collapse dot runs to a single dot. -/
def sanitizeExt (l : List Char) : List Char :=
  if l.isEmpty then []
  else
    let e1 := (l.filter (fun c => jsIsWordChar c || c == '.')).take 10
    let e2 := if extStartsDot e1 then e1 else '.' :: e1
    collapseExtDotRuns e2

def windowsReservedNames : List (List Char) :=
  ["CON".toList, "PRN".toList, "AUX".toList, "NUL".toList,
   "COM1".toList, "COM2".toList, "COM3".toList, "COM4".toList, "COM5".toList,
   "COM6".toList, "COM7".toList, "COM8".toList, "COM9".toList,
   "LPT1".toList, "LPT2".toList, "LPT3".toList, "LPT4".toList, "LPT5".toList,
   "LPT6".toList, "LPT7".toList, "LPT8".toList, "LPT9".toList]

/-- `sanitizeFilename` from `sanitization.ts`, step for step. -/
def sanitizeFilename (filename : List Char) : List Char :=
  if filename.isEmpty then "unnamed_file".toList
  else
    let t := jsTrim filename
    if t.isEmpty then "unnamed_file".toList
    else
      let be := splitNameExt t
      let base := sanitizeBase be.1
      let ext := sanitizeExt be.2
      let s0 := base ++ ext
      let nameNoExt :=
        match lastIndexOfDot s0 with
        | some j => if 0 < j then s0.take j else s0
        | none => s0
      let s1 :=
        if (nameNoExt.map Char.toUpper) ∈ windowsReservedNames then
          nameNoExt ++ "_file".toList ++ ext
        else s0
      let s2 := if 255 < s1.length then base.take (255 - ext.length) ++ ext else s1
      if s2.isEmpty || s2 == ext then "unnamed_file".toList ++ ext else s2

/-- `filename.includes('..')`. -/
def containsDotDot : List Char → Bool
  | [] => false
  | '.' :: '.' :: _ => true
  | _ :: rest => containsDotDot rest

/-- `filename.includes(ch)` for a single character. -/
def containsChar (ch : Char) : List Char → Bool
  | [] => false
  | c :: t => c == ch || containsChar ch t

/-- The `[<>:"|?*\x00-\x1F]` test of `isFilenameSafe`. -/
def isDangerousForSafe (c : Char) : Bool :=
  ['<', '>', ':', '\"', '|', '?', '*'].contains c || decide (c.toNat ≤ 31)

/-- `isFilenameSafe` from `sanitization.ts`. -/
def isFilenameSafe (l : List Char) : Bool :=
  if l.isEmpty then false
  else if containsDotDot l || containsChar '/' l || containsChar '\\' l then false
  else if l.any isDangerousForSafe then false
  else if l.length == 0 || 255 < l.length then false
  else true

theorem containsChar_of_mem (ch : Char) :
    ∀ l : List Char, ch ∈ l → containsChar ch l = true := by
  intro l
  induction l with
  | nil => intro h; exact absurd h (List.not_mem_nil ch)
  | cons c t ih =>
    intro h
    rcases List.mem_cons.mp h with h | h
    · simp [containsChar, h]
    · simp [containsChar, ih h]

/-- The path segments of a name: maximal runs between `/` or `\`
separators (a name with no separator is its own single segment). -/
def pathSegments : List Char → List (List Char)
  | [] => [[]]
  | c :: rest =>
    match pathSegments rest with
    | [] => [[c]]
    | s :: ss => if c == '/' || c == '\\' then [] :: s :: ss else (c :: s) :: ss

/-! ### File route handlers (`file-routes.ts`) -/

/-- Outcome of `POST /api/files/initiate`. -/
inductive InitiateResult where
  | invalidTarget
  | roomError (status : Nat)
  | invalidFilename
  | ok (fileId : FileId)
deriving DecidableEq, Repr

/-- The initiate handler after the identity check: mutually-exclusive
target validation, room-membership check when the target is a room
(`roomAccessError` carries `ensureRoomAccess`'s status when it failed),
filename-safety check, then session registration with
`totalChunks = Math.ceil(size / CHUNK_SIZE)`.  There is no check on
`size`. -/
def initiateHandler (newFileId : FileId) (hasRecipient hasRoom : Bool)
    (roomAccessError : Option Nat) (name : List Char) (size : Nat)
    (mime : List Char) (st : SQLiteState) : InitiateResult × SQLiteState :=
  if (hasRecipient && hasRoom) || (!hasRecipient && !hasRoom) then
    (.invalidTarget, st)
  else
    match (if hasRoom then roomAccessError else none) with
    | some s => (.roomError s, st)
    | none =>
      if name.isEmpty || !(isFilenameSafe name) then (.invalidFilename, st)
      else
        (.ok newFileId,
          initiateFileUpload newFileId ⟨sanitizeFilename name, size, mime⟩
            (totalChunksFor size) st)

/-- Outcome of `POST /api/files/upload/:fileId/:chunkIndex` up to and
including the `db.addFileChunk` call.  The handler performs no check that
`fileId` names an open session and no check on the chunk index; a thrown
database error is caught and answered as a generic 500
(`'Failed to upload chunk'`).  On `isComplete` the handler assembles via
`getCompleteFile` and deletes the session; that continuation is modelled
separately. -/
inductive ChunkOutcome where
  | invalidTarget
  | internalError
  | ok (isComplete : Bool)
deriving DecidableEq, Repr

def uploadChunkDbStep (hasRecipient hasRoom : Bool) (fid : FileId) (idx : Nat)
    (b : Bytes) (st : SQLiteState) : ChunkOutcome × SQLiteState :=
  if (hasRecipient && hasRoom) || (!hasRecipient && !hasRoom) then
    (.invalidTarget, st)
  else
    match addFileChunk fid idx b st with
    | .error _ => (.internalError, st)
    | .ok (complete, st') => (.ok complete, st')

/-- Outcome of `GET /api/files/:fileId` up to the first filesystem access. -/
inductive DownloadOutcome where
  | invalidTarget
  | invalidInput
  | fsAccess
deriving DecidableEq, Repr

/-- The download handler's validation prefix, in source order: target
exclusivity first, then `isFilenameSafe` — both before any
`FileStorageService` (filesystem) call. -/
def downloadValidate (hasRecipient hasRoom : Bool) (fileName : List Char) :
    DownloadOutcome :=
  if (hasRecipient && hasRoom) || (!hasRecipient && !hasRoom) then .invalidTarget
  else if !(isFilenameSafe fileName) then .invalidInput
  else .fsAccess

/-! ### Rooms (`sqlite-db.ts` room section and `room-routes`) -/

/-- One `rooms` row joined with its `room_participants` (ordered by
`joined_at`, carrying the user ids). -/
structure Room where
  id : String
  code : Nat
  name : String
  createdBy : String
  createdAt : Nat
  expiresAt : Option Nat
  isPermanent : Bool
  participants : List String
deriving DecidableEq, Repr

abbrev RoomStore := List Room

def findRoomRowById (rid : String) (st : RoomStore) : Option Room :=
  st.find? (fun r => r.id == rid)

def findRoomRowByCode (code : Nat) (st : RoomStore) : Option Room :=
  st.find? (fun r => r.code == code)

/-- The lazy-expiration test
`!room.isPermanent && room.expiresAt && room.expiresAt < Date.now()`
(`expiresAt` is truthy only when present and non-zero). -/
def isExpiredCheck (r : Room) (now : Nat) : Bool :=
  !r.isPermanent &&
    (match r.expiresAt with
     | none => false
     | some e => decide (e ≠ 0) && decide (e < now))

/-- `SQLiteDatabase.deleteRoom`: `DELETE FROM rooms WHERE id = ?`
(participants and messages cascade). -/
def deleteRoom (rid : String) (st : RoomStore) : RoomStore :=
  st.filter (fun r => r.id != rid)

/-- `SQLiteDatabase.getRoomById`: row lookup, then the lazy-expiration
check, deleting the room and returning `null` when it fires. -/
def getRoomById (rid : String) (now : Nat) (st : RoomStore) :
    Option Room × RoomStore :=
  match findRoomRowById rid st with
  | none => (none, st)
  | some r => if isExpiredCheck r now then (none, deleteRoom r.id st) else (some r, st)

/-- `SQLiteDatabase.getRoomByCode`, identical shape to `getRoomById`. -/
def getRoomByCode (code : Nat) (now : Nat) (st : RoomStore) :
    Option Room × RoomStore :=
  match findRoomRowByCode code st with
  | none => (none, st)
  | some r => if isExpiredCheck r now then (none, deleteRoom r.id st) else (some r, st)

/-- `ensureRoomAccess` from `file-routes.ts`: resolve by id (404 when
unresolvable or expired), then require membership (403). -/
def ensureRoomAccess (uid : String) (rid : String) (now : Nat) (st : RoomStore) :
    Except Nat Room × RoomStore :=
  match getRoomById rid now st with
  | (none, st') => (.error 404, st')
  | (some r, st') =>
    if r.participants.contains uid then (.ok r, st') else (.error 403, st')

/-- `SQLiteDatabase.removeParticipantFromRoom`: `DELETE FROM
room_participants WHERE room_id = ? AND user_id = ?`. -/
def removeParticipantFromRoom (rid uid : String) (st : RoomStore) : RoomStore :=
  st.map (fun r =>
    if r.id == rid then { r with participants := r.participants.filter (fun p => p != uid) }
    else r)

/-- `POST /api/rooms/:roomId/leave`: resolve the room (404 when missing or
expired), remove the participant, re-fetch, and delete the room when no
participants remain. -/
def leaveRoomHandler (rid uid : String) (now : Nat) (st : RoomStore) :
    Nat × RoomStore :=
  match getRoomById rid now st with
  | (none, st') => (404, st')
  | (some _, st') =>
    let st2 := removeParticipantFromRoom rid uid st'
    match getRoomById rid now st2 with
    | (some r2, st3) =>
      if r2.participants.isEmpty then (200, deleteRoom rid st3) else (200, st3)
    | (none, st3) => (200, st3)

/-- The collision-retry loop of `SQLiteDatabase.createRoom`:
`while (getRoomByCode(code) && attempts < 10) { code = generate(); attempts++ }`.
`gen t` is the code produced by the `t`-th `generateRoomCode()` call; each
`getRoomByCode` check may lazily delete an expired room, so the store is
threaded through.  The loop body runs at most 10 times, so fuel 11 is
never exhausted. -/
def createRoomLoop (gen : Nat → Nat) (now : Nat) :
    Nat → Nat → Nat → RoomStore → Nat × RoomStore
  | 0, code, _, st => (code, st)
  | fuel + 1, code, attempts, st =>
    match getRoomByCode code now st with
    | (some _, st') =>
      if attempts < 10 then
        createRoomLoop gen now fuel (gen (attempts + 1)) (attempts + 1) st'
      else (code, st')
    | (none, st') => (code, st')

/-- `SQLiteDatabase.generateRoomCode`:
`Math.floor(100000 + Math.random() * 900000)`, with the random draw
modelled as a natural reduced mod 900000 — always a 6-digit code. -/
def generateRoomCode (rand : Nat) : Nat := 100000 + rand % 900000

/-- `SQLiteDatabase.createRoom`: pick a code via the retry loop (the `t`-th
`generateRoomCode()` call consumes the draw `rand t`), then insert the room
(UNIQUE constraint on `rooms.code`, PRIMARY KEY on `rooms.id`; a violation
throws and rolls the transaction back) with the creator as sole
participant; `expiresAt = now + 24h` unless permanent (the route never
passes `expiresInHours`, so the default 24 applies). -/
def createRoomPick (rand : Nat → Nat) (now : Nat) (st : RoomStore) :
    Nat × RoomStore :=
  createRoomLoop (fun t => generateRoomCode (rand t)) now 11
    (generateRoomCode (rand 0)) 0 st

def createRoom (rand : Nat → Nat) (roomId : String) (name : String)
    (createdBy : String) (isPermanent : Bool) (now : Nat) (st : RoomStore) :
    Except DbErr ((String × Nat) × RoomStore) :=
  if ((createRoomPick rand now st).2.find?
      (fun r => r.code == (createRoomPick rand now st).1 || r.id == roomId)).isSome then
    .error .uniqueViolation
  else
    .ok ((roomId, (createRoomPick rand now st).1),
      (createRoomPick rand now st).2 ++
        [{ id := roomId, code := (createRoomPick rand now st).1, name := name,
           createdBy := createdBy, createdAt := now,
           expiresAt := if isPermanent then none else some (now + 24 * 60 * 60 * 1000),
           isPermanent := isPermanent, participants := [createdBy] }])

/-- `POST /api/rooms/create` after its `userId`/`roomName` checks: any
error thrown by `createRoom` is caught and answered as a generic 500
(`'Failed to create room'`), never as 409 Conflict. -/
def createRoomHandler (rand : Nat → Nat) (roomId : String) (name : String)
    (createdBy : String) (isPermanent : Bool) (now : Nat) (st : RoomStore) :
    (Nat × Option (String × Nat)) × RoomStore :=
  match createRoom rand roomId name createdBy isPermanent now st with
  | .ok (rc, st') => ((200, some rc), st')
  | .error _ => ((500, none), st)

/-! ### Legacy `InMemoryDB` (`in-memory-db.ts`) -/

/-- One `fileUploads` entry of `InMemoryDB`: a chunk `Map`, an
`uploadedChunks` counter incremented on every `addFileChunk` call
(duplicates included), and `totalChunks`. -/
structure InMemUpload where
  chunks : ChunkRows
  uploadedChunks : Nat
  totalChunks : Nat
deriving DecidableEq, Repr

abbrev InMemState := List (FileId × InMemUpload)

/-- `InMemoryDB.addFileChunk`: throws when the upload was not initiated;
otherwise `chunks.set(index, data)` (upsert) and `uploadedChunks++`,
reporting completion when the incremented counter equals `totalChunks`. -/
def inMemAddFileChunk (fid : FileId) (idx : Nat) (b : Bytes) (st : InMemState) :
    Except String (Bool × InMemState) :=
  match assocFind fid st with
  | none => .error "File upload not initiated"
  | some u =>
    let u' : InMemUpload :=
      { u with chunks := upsertChunk idx b u.chunks,
               uploadedChunks := u.uploadedChunks + 1 }
    .ok (decide (u'.uploadedChunks = u'.totalChunks), assocSet fid u' st)

/-- `Map.prototype.get` on the chunk map (key lookup by chunk index). -/
def chunkGet (i : Nat) : ChunkRows → Option Bytes
  | [] => none
  | p :: t => if p.1 == i then some p.2 else chunkGet i t

/-- The assembly loop of `InMemoryDB.getCompleteFile`: read the listed
indices in order, throwing `Missing chunk i` at the first absent one. -/
def inMemAssemble (chunks : ChunkRows) : List Nat → Except String Bytes
  | [] => .ok []
  | i :: rest =>
    match chunkGet i chunks with
    | none => .error "Missing chunk"
    | some c =>
      match inMemAssemble chunks rest with
      | .error e => .error e
      | .ok bs => .ok (c ++ bs)

/-- `InMemoryDB.getCompleteFile`: `null` unless the counter matches
`totalChunks`, then reads chunks `0 .. totalChunks-1` via `chunks.get(i)`,
throwing `Missing chunk i` when one is absent. -/
def inMemGetCompleteFile (fid : FileId) (st : InMemState) :
    Except String (Option Bytes) :=
  match assocFind fid st with
  | none => .ok none
  | some u =>
    if u.uploadedChunks ≠ u.totalChunks then .ok none
    else
      match inMemAssemble u.chunks (List.range u.totalChunks) with
      | .error e => .error e
      | .ok bs => .ok (some bs)

/-! ### Users and login (`sqlite-db.ts` users, `user-routes.ts` login) -/

/-- One `users` row (`name` has `UNIQUE COLLATE NOCASE`). -/
structure UserRow where
  id : String
  name : List Char
deriving DecidableEq, Repr

/-- SQLite's `NOCASE` collation folds the ASCII letters A-Z only. -/
def asciiLower (c : Char) : Char :=
  if 'A' ≤ c ∧ c ≤ 'Z' then Char.ofNat (c.toNat + 32) else c

/-- Name equality under `COLLATE NOCASE`. -/
def nocaseEq (a b : List Char) : Bool :=
  a.map asciiLower == b.map asciiLower

/-- `SQLiteDatabase.getUserByName`: `SELECT ... WHERE name = ? COLLATE
NOCASE`. -/
def getUserByName (name : List Char) (users : List UserRow) : Option UserRow :=
  users.find? (fun u => nocaseEq u.name name)

/-- Login result: 400 for a bad name, 409 Conflict for an existing name
(case-insensitive), 200 with the new user created. -/
def loginHandler (sanitizeName : List Char → List Char) (newId : String)
    (rawName : List Char) (users : List UserRow) : Nat × List UserRow :=
  let trimmed := jsTrim rawName
  if trimmed.length < 2 then (400, users)
  else if 50 < trimmed.length then (400, users)
  else
    let s := sanitizeName trimmed
    match getUserByName s users with
    | some _ => (409, users)
    | none => (200, users ++ [⟨newId, s⟩])

/-- The invariant of the `UNIQUE COLLATE NOCASE` column: no two stored user
names are equal up to ASCII case. -/
def NocaseUnique (users : List UserRow) : Prop :=
  users.Pairwise (fun u v => nocaseEq u.name v.name = false)

/-! ### Claim theorems -/

/-- C8, counterexample: `sanitizeFilename` is not idempotent.  The input
`"a.\x01.b.c"` has a control character between two dots; dot-run collapse
runs before control-character removal, so the first pass yields `"a..b.c"`
and a second pass collapses the now-adjacent dots to `"a_b.c"`. -/
theorem claim_C8_counterexample :
    sanitizeFilename (sanitizeFilename ("a.\x01.b.c".toList)) ≠
      sanitizeFilename ("a.\x01.b.c".toList) := by decide

/-- C8, amended: filename sanitization is deterministic (equal inputs give
equal outputs), but it is not idempotent — a second application can differ
from the first, e.g. on `"a.\x01.b.c"`. -/
theorem claim_C8_amended :
    (∀ s t : List Char, s = t → sanitizeFilename s = sanitizeFilename t) ∧
    sanitizeFilename (sanitizeFilename ("a.\x01.b.c".toList)) ≠
      sanitizeFilename ("a.\x01.b.c".toList) := by
  constructor
  · intro s t h
    rw [h]
  · decide

/-- Witness for C8: the amended theorem applied at a concrete input. -/
theorem claim_C8_witness :
    sanitizeFilename ("doc.txt".toList) = sanitizeFilename ("doc.txt".toList) ∧
    sanitizeFilename (sanitizeFilename ("a.\x01.b.c".toList)) ≠
      sanitizeFilename ("a.\x01.b.c".toList) :=
  ⟨claim_C8_amended.1 ("doc.txt".toList) ("doc.txt".toList) rfl,
   claim_C8_amended.2⟩

/-- C9: the sanitized form of `"../../etc/passwd"` contains no `/` or `\`
and no `..` path segment, and the download route rejects any filename
containing `..`, `/` or `\` with InvalidInput (400) before the branch that
touches the filesystem. -/
theorem claim_C9 :
    (('/' ∉ sanitizeFilename ("../../etc/passwd".toList)) ∧
     ('\\' ∉ sanitizeFilename ("../../etc/passwd".toList)) ∧
     (∀ seg ∈ pathSegments (sanitizeFilename ("../../etc/passwd".toList)),
       seg ≠ "..".toList)) ∧
    (∀ (hasRecipient hasRoom : Bool) (name : List Char),
      hasRecipient ≠ hasRoom →
      (containsDotDot name = true ∨ '/' ∈ name ∨ '\\' ∈ name) →
      downloadValidate hasRecipient hasRoom name = .invalidInput) := by
  refine ⟨by decide, ?_⟩
  intro hasRecipient hasRoom name hne hbad
  have h2 : (containsDotDot name || containsChar '/' name || containsChar '\\' name) = true := by
    rcases hbad with h | h | h
    · simp [h]
    · simp [containsChar_of_mem '/' name h]
    · simp [containsChar_of_mem '\\' name h]
  have hsafe : isFilenameSafe name = false := by
    unfold isFilenameSafe
    by_cases he : name.isEmpty = true
    · rw [if_pos he]
    · rw [if_neg he, if_pos h2]
  have htarget : ((hasRecipient && hasRoom) || (!hasRecipient && !hasRoom)) = false := by
    cases hasRecipient <;> cases hasRoom <;> simp_all
  unfold downloadValidate
  rw [if_neg (by simp [htarget]), if_pos (by simp [hsafe])]

/-- Witness for C9: the download-rejection half applied to a concrete
traversal filename. -/
theorem claim_C9_witness :
    (true ≠ false) ∧ containsDotDot ("..secret".toList) = true ∧
    downloadValidate true false ("..secret".toList) = .invalidInput :=
  ⟨by decide, by decide,
   claim_C9.2 true false ("..secret".toList) (by decide) (Or.inl (by decide))⟩

/-- C7, counterexample: `initiate` accepts a zero-size file.  With a safe
name and `size = 0` the handler answers `ok` and registers an
UploadSession (with `totalChunks = 0`) instead of rejecting with
InvalidInput. -/
theorem claim_C7_counterexample :
    (initiateHandler "f1" true false none ("a.txt".toList) 0 ("text/plain".toList)
        ⟨[], []⟩).1 = .ok "f1" ∧
    (lookupUpload "f1"
        (initiateHandler "f1" true false none ("a.txt".toList) 0 ("text/plain".toList)
          ⟨[], []⟩).2).isSome = true := by
  constructor
  · rfl
  · rfl

/-- C7, amended: `initiate` rejects a missing/unsafe filename with
InvalidInput and creates no UploadSession; `fileMeta.size` is not
validated — any size, including 0, is accepted and registers a session with
`totalChunks = ceil(size / CHUNK_SIZE)` (0 chunks for an empty file). -/
theorem claim_C7_amended :
    ∀ (fid : FileId) (hasRecipient hasRoom : Bool) (name : List Char)
      (size : Nat) (mime : List Char) (st : SQLiteState),
      hasRecipient ≠ hasRoom → (hasRoom = true → False) →
      ((isFilenameSafe name = false →
        initiateHandler fid hasRecipient hasRoom none name size mime st =
          (.invalidFilename, st)) ∧
       (isFilenameSafe name = true →
        initiateHandler fid hasRecipient hasRoom none name size mime st =
          (.ok fid,
           initiateFileUpload fid ⟨sanitizeFilename name, size, mime⟩
             (totalChunksFor size) st))) := by
  intro fid hasRecipient hasRoom name size mime st hne hnoroom
  have htarget : ((hasRecipient && hasRoom) || (!hasRecipient && !hasRoom)) = false := by
    cases hasRecipient <;> cases hasRoom <;> simp_all
  have hroom : hasRoom = false := by
    cases hasRoom
    · rfl
    · exact absurd rfl hnoroom
  constructor
  · intro hsafe
    unfold initiateHandler
    rw [if_neg (by simp [htarget]), hroom]
    simp [hsafe]
  · intro hsafe
    have hnonempty : name.isEmpty = false := by
      cases name with
      | nil => simp [isFilenameSafe] at hsafe
      | cons c t => rfl
    unfold initiateHandler
    rw [if_neg (by simp [htarget]), hroom]
    simp [hsafe, hnonempty]

/-- Witness for C7: the amended theorem at concrete inputs (unsafe name
rejected; safe name with size 0 accepted). -/
theorem claim_C7_witness :
    isFilenameSafe ("a/b".toList) = false ∧
    initiateHandler "f1" true false none ("a/b".toList) 7 ("t".toList) ⟨[], []⟩ =
      (.invalidFilename, ⟨[], []⟩) ∧
    isFilenameSafe ("a.txt".toList) = true ∧
    initiateHandler "f2" true false none ("a.txt".toList) 0 ("t".toList) ⟨[], []⟩ =
      (.ok "f2",
       initiateFileUpload "f2" ⟨sanitizeFilename ("a.txt".toList), 0, "t".toList⟩
         (totalChunksFor 0) ⟨[], []⟩) :=
  ⟨by decide,
   (claim_C7_amended "f1" true false ("a/b".toList) 7 ("t".toList) ⟨[], []⟩
     (by decide) (by decide)).1 (by decide),
   by decide,
   (claim_C7_amended "f2" true false ("a.txt".toList) 0 ("t".toList) ⟨[], []⟩
     (by decide) (by decide)).2 (by decide)⟩

/-- C4, counterexample: with an open session of `totalChunks = 1`, a chunk
upload at the out-of-range index 5 is not rejected with InvalidInput: the
chunk is stored, counted, and even reported as completing the upload. -/
theorem claim_C4_counterexample :
    (uploadChunkDbStep true false "f1" 5 [7]
        ⟨[("f1", ⟨⟨"a".toList, 1, [].asString.toList⟩, 1, 0⟩)], []⟩).1 =
      .ok true ∧
    chunksFor "f1"
        (uploadChunkDbStep true false "f1" 5 [7]
          ⟨[("f1", ⟨⟨"a".toList, 1, [].asString.toList⟩, 1, 0⟩)], []⟩).2 =
      [(5, [7])] := by
  constructor
  · rfl
  · rfl

/-- C4, amended: the chunk-upload handler performs no fileId or index
validation.  With an unknown fileId the chunk insert fails the foreign-key
constraint and the route answers the generic 500 Internal error (never 404
NotFound), leaving the state unchanged; with a known fileId any index —
in range or not — is stored, counted toward completion, and answered with
success. -/
theorem claim_C4_amended :
    ∀ (hasRecipient hasRoom : Bool) (fid : FileId) (idx : Nat) (b : Bytes)
      (st : SQLiteState),
      hasRecipient ≠ hasRoom →
      ((lookupUpload fid st = none →
        uploadChunkDbStep hasRecipient hasRoom fid idx b st = (.internalError, st)) ∧
       (∀ row : UploadRow, lookupUpload fid st = some row →
        uploadChunkDbStep hasRecipient hasRoom fid idx b st =
          (.ok (addFileChunkCore fid idx b st).1, addFileChunkState fid idx b st) ∧
        idx ∈ chunkKeys (chunksFor fid (addFileChunkState fid idx b st)))) := by
  intro hasRecipient hasRoom fid idx b st hne
  have htarget : ((hasRecipient && hasRoom) || (!hasRecipient && !hasRoom)) = false := by
    cases hasRecipient <;> cases hasRoom <;> simp_all
  constructor
  · intro hnone
    unfold uploadChunkDbStep
    rw [if_neg (by simp [htarget])]
    unfold addFileChunk
    rw [hnone]
    rfl
  · intro row hrow
    constructor
    · cases hcore : addFileChunkCore fid idx b st with
      | mk fstv sndv =>
        have hsnd := addFileChunkCore_snd fid idx b st
        rw [hcore] at hsnd
        simp only at hsnd
        simp [uploadChunkDbStep, htarget, addFileChunk, hrow, hcore, hsnd]
    · rw [chunksFor_addState]
      exact (chunkKeys_upsert idx b (chunksFor fid st) idx).mpr (Or.inl rfl)

/-- Witness for C4: the amended theorem at concrete inputs (unknown fileId
gives 500 with no state change; out-of-range index stored). -/
theorem claim_C4_witness :
    lookupUpload "ghost" (⟨[], []⟩ : SQLiteState) = none ∧
    uploadChunkDbStep true false "ghost" 0 [1] ⟨[], []⟩ = (.internalError, ⟨[], []⟩) ∧
    5 ∈ chunkKeys (chunksFor "f1"
      (addFileChunkState "f1" 5 [7]
        ⟨[("f1", ⟨⟨"a".toList, 1, "t".toList⟩, 1, 0⟩)], []⟩)) :=
  ⟨rfl,
   (claim_C4_amended true false "ghost" 0 [1] ⟨[], []⟩ (by decide)).1 rfl,
   ((claim_C4_amended true false "f1" 5 [7]
       ⟨[("f1", ⟨⟨"a".toList, 1, "t".toList⟩, 1, 0⟩)], []⟩ (by decide)).2
     ⟨⟨"a".toList, 1, "t".toList⟩, 1, 0⟩ rfl).2⟩

/-- C10: login never creates two users whose names are equal up to ASCII
case (the `COLLATE NOCASE` comparison the database performs).  When a user
with the same name already exists (case-insensitively), the handler answers
409 Conflict and leaves the user table unchanged; in every case the
case-insensitive uniqueness of stored names is preserved.  The name
sanitizer is abstracted as a parameter: its output is both the name checked
and the name stored, so the invariant does not depend on it. -/
theorem claim_C10 :
    ∀ (sanitizeName : List Char → List Char) (newId : String) (raw : List Char)
      (users : List UserRow), NocaseUnique users →
      ((2 ≤ (jsTrim raw).length → (jsTrim raw).length ≤ 50 →
        (getUserByName (sanitizeName (jsTrim raw)) users).isSome = true →
        loginHandler sanitizeName newId raw users = (409, users)) ∧
       NocaseUnique (loginHandler sanitizeName newId raw users).2) := by
  intro sanitizeName newId raw users huniq
  constructor
  · intro hlen1 hlen2 hexists
    unfold loginHandler
    rw [if_neg (by omega), if_neg (by omega)]
    unfold getUserByName at hexists
    cases hfind : (users.find? (fun u => nocaseEq u.name (sanitizeName (jsTrim raw)))) with
    | none => rw [hfind] at hexists; simp [getUserByName, hfind] at hexists
    | some u => simp [getUserByName, hfind]
  · unfold loginHandler
    by_cases h1 : (jsTrim raw).length < 2
    · rw [if_pos h1]
      exact huniq
    · rw [if_neg h1]
      by_cases h2 : 50 < (jsTrim raw).length
      · rw [if_pos h2]
        exact huniq
      · rw [if_neg h2]
        cases hfind : getUserByName (sanitizeName (jsTrim raw)) users with
        | some u =>
          simp only [hfind]
          exact huniq
        | none =>
          simp only [hfind]
          unfold NocaseUnique
          rw [List.pairwise_append]
          refine ⟨huniq, List.pairwise_singleton _ _, ?_⟩
          intro u hu v hv
          have hv1 : v = (⟨newId, sanitizeName (jsTrim raw)⟩ : UserRow) := by
            simpa using hv
          unfold getUserByName at hfind
          have := List.find?_eq_none.mp hfind u hu
          rw [hv1]
          simpa using this

/-- Witness for C10: the theorem at a concrete store (login of "alice"
conflicts with the stored "Alice" and changes nothing). -/
theorem claim_C10_witness :
    NocaseUnique [⟨"u1", "Alice".toList⟩] ∧
    loginHandler id "u2" ("alice".toList) [⟨"u1", "Alice".toList⟩] =
      (409, [⟨"u1", "Alice".toList⟩]) ∧
    NocaseUnique (loginHandler id "u2" ("alice".toList) [⟨"u1", "Alice".toList⟩]).2 :=
  ⟨by unfold NocaseUnique; exact List.pairwise_singleton _ _,
   (claim_C10 id "u2" ("alice".toList) [⟨"u1", "Alice".toList⟩]
     (by unfold NocaseUnique; exact List.pairwise_singleton _ _)).1
     (by decide) (by decide) (by decide),
   (claim_C10 id "u2" ("alice".toList) [⟨"u1", "Alice".toList⟩]
     (by unfold NocaseUnique; exact List.pairwise_singleton _ _)).2⟩

/-- C5: every room resolution (by id or by code) applies the lazy
expiration check first.  A non-permanent room whose `expiresAt` lies in the
past resolves to nothing — the caller receives 404 NotFound — and is
deleted from storage as a side effect; a permanent room is never treated as
expired, whatever `now` is. -/
theorem claim_C5 :
    ∀ (st : RoomStore) (now : Nat) (rid : String) (code : Nat) (r : Room),
      ((findRoomRowById rid st = some r → r.isPermanent = false →
        ∀ e, r.expiresAt = some e → 0 < e → e < now →
        getRoomById rid now st = (none, deleteRoom r.id st) ∧
        ∀ uid, (ensureRoomAccess uid rid now st).1 = .error 404) ∧
       (findRoomRowById rid st = some r → r.isPermanent = true →
        getRoomById rid now st = (some r, st)) ∧
       (findRoomRowByCode code st = some r → r.isPermanent = false →
        ∀ e, r.expiresAt = some e → 0 < e → e < now →
        getRoomByCode code now st = (none, deleteRoom r.id st)) ∧
       (findRoomRowByCode code st = some r → r.isPermanent = true →
        getRoomByCode code now st = (some r, st))) := by
  intro st now rid code r
  refine ⟨?_, ?_, ?_, ?_⟩
  · intro hfind hperm e hexp he hnow
    have hcheck : isExpiredCheck r now = true := by
      unfold isExpiredCheck
      rw [hperm, hexp]
      simp only [Bool.not_false, Bool.true_and]
      simp [decide_eq_true_eq]
      omega
    constructor
    · simp [getRoomById, hfind, hcheck]
    · intro uid
      simp [ensureRoomAccess, getRoomById, hfind, hcheck]
  · intro hfind hperm
    have hcheck : isExpiredCheck r now = false := by
      unfold isExpiredCheck
      rw [hperm]
      rfl
    simp [getRoomById, hfind, hcheck]
  · intro hfind hperm e hexp he hnow
    have hcheck : isExpiredCheck r now = true := by
      unfold isExpiredCheck
      rw [hperm, hexp]
      simp only [Bool.not_false, Bool.true_and]
      simp [decide_eq_true_eq]
      omega
    simp [getRoomByCode, hfind, hcheck]
  · intro hfind hperm
    have hcheck : isExpiredCheck r now = false := by
      unfold isExpiredCheck
      rw [hperm]
      rfl
    simp [getRoomByCode, hfind, hcheck]

/-- Witness for C5: the theorem at a concrete expired room and a concrete
permanent room. -/
theorem claim_C5_witness :
    getRoomById "rA" 100
        [{ id := "rA", code := 111111, name := "A", createdBy := "u",
           createdAt := 5, expiresAt := some 10, isPermanent := false,
           participants := ["u"] }] =
      (none,
       deleteRoom "rA"
         [{ id := "rA", code := 111111, name := "A", createdBy := "u",
            createdAt := 5, expiresAt := some 10, isPermanent := false,
            participants := ["u"] }]) ∧
    (ensureRoomAccess "u" "rA" 100
        [{ id := "rA", code := 111111, name := "A", createdBy := "u",
           createdAt := 5, expiresAt := some 10, isPermanent := false,
           participants := ["u"] }]).1 = .error 404 ∧
    getRoomById "rB" 100
        [{ id := "rB", code := 222222, name := "B", createdBy := "u",
           createdAt := 5, expiresAt := none, isPermanent := true,
           participants := ["u"] }] =
      (some { id := "rB", code := 222222, name := "B", createdBy := "u",
              createdAt := 5, expiresAt := none, isPermanent := true,
              participants := ["u"] },
       [{ id := "rB", code := 222222, name := "B", createdBy := "u",
          createdAt := 5, expiresAt := none, isPermanent := true,
          participants := ["u"] }]) :=
  ⟨((claim_C5
      [{ id := "rA", code := 111111, name := "A", createdBy := "u",
         createdAt := 5, expiresAt := some 10, isPermanent := false,
         participants := ["u"] }] 100 "rA" 0
      { id := "rA", code := 111111, name := "A", createdBy := "u",
        createdAt := 5, expiresAt := some 10, isPermanent := false,
        participants := ["u"] }).1 rfl rfl 10 rfl (by decide) (by decide)).1,
   ((claim_C5
      [{ id := "rA", code := 111111, name := "A", createdBy := "u",
         createdAt := 5, expiresAt := some 10, isPermanent := false,
         participants := ["u"] }] 100 "rA" 0
      { id := "rA", code := 111111, name := "A", createdBy := "u",
        createdAt := 5, expiresAt := some 10, isPermanent := false,
        participants := ["u"] }).1 rfl rfl 10 rfl (by decide) (by decide)).2 "u",
   (claim_C5
      [{ id := "rB", code := 222222, name := "B", createdBy := "u",
         createdAt := 5, expiresAt := none, isPermanent := true,
         participants := ["u"] }] 100 "rB" 0
      { id := "rB", code := 222222, name := "B", createdBy := "u",
        createdAt := 5, expiresAt := none, isPermanent := true,
        participants := ["u"] }).2.1 rfl rfl⟩

theorem roomIds_map_remove (rid uid : String) (st : RoomStore) :
    (removeParticipantFromRoom rid uid st).map Room.id = st.map Room.id := by
  unfold removeParticipantFromRoom
  rw [List.map_map]
  refine List.map_congr_left ?_
  intro r _
  by_cases h : r.id = rid <;> simp [h]

theorem find_room_unique : ∀ (l : RoomStore), (l.map Room.id).Nodup →
    ∀ r ∈ l, l.find? (fun x => x.id == r.id) = some r := by
  intro l
  induction l with
  | nil => intro _ r hr; exact absurd hr (List.not_mem_nil r)
  | cons h t ih =>
    intro hnodup r hr
    rw [List.map_cons, List.nodup_cons] at hnodup
    obtain ⟨hnotin, hnd⟩ := hnodup
    rcases List.mem_cons.mp hr with hr | hr
    · rw [hr]
      rw [List.find?_cons_of_pos _ (by simp)]
    · by_cases hid : (h.id == r.id) = true
      · exfalso
        have hmem : r.id ∈ t.map Room.id := List.mem_map.mpr ⟨r, hr, rfl⟩
        have heq : h.id = r.id := by simpa using hid
        rw [← heq] at hmem
        exact hnotin hmem
      · rw [List.find?_cons_of_neg _ (by simpa using hid)]
        exact ih hnd r hr

theorem getRoomById_none_no_room (rid : String) (now : Nat) (st st' : RoomStore)
    (h : getRoomById rid now st = (none, st')) : ∀ r ∈ st', r.id ≠ rid := by
  unfold getRoomById at h
  cases hfind : findRoomRowById rid st with
  | none =>
    rw [hfind] at h
    simp only [Prod.mk.injEq] at h
    intro r hr
    rw [← h.2] at hr
    have := List.find?_eq_none.mp hfind r hr
    simpa using this
  | some r0 =>
    simp only [hfind] at h
    by_cases hexp : isExpiredCheck r0 now = true
    · rw [if_pos hexp] at h
      simp only [Prod.mk.injEq] at h
      have hr0 : (r0.id == rid) = true := by
        have := List.find?_some hfind
        simpa using this
      have hr0id : r0.id = rid := by simpa using hr0
      intro r hr
      rw [← h.2] at hr
      unfold deleteRoom at hr
      have := (List.mem_filter.mp hr).2
      simp only [bne_iff_ne, ne_eq] at this
      rw [← hr0id]
      exact this
    · rw [if_neg hexp] at h
      simp at h

theorem getRoomById_some (rid : String) (now : Nat) (st st' : RoomStore)
    (r : Room) (h : getRoomById rid now st = (some r, st')) :
    st' = st ∧ findRoomRowById rid st = some r := by
  unfold getRoomById at h
  cases hfind : findRoomRowById rid st with
  | none =>
    rw [hfind] at h
    simp at h
  | some r0 =>
    simp only [hfind] at h
    by_cases hexp : isExpiredCheck r0 now = true
    · rw [if_pos hexp] at h
      simp at h
    · rw [if_neg hexp] at h
      simp only [Prod.mk.injEq, Option.some.injEq] at h
      exact ⟨h.2.symm, congrArg some h.1⟩

/-- C6: after a leave operation, the room it acted on never survives with
zero participants — the handler deletes a room whose re-fetched participant
list is empty, so every room still stored under that id has at least one
participant. -/
theorem claim_C6 :
    ∀ (rid uid : String) (now : Nat) (st : RoomStore),
      (st.map Room.id).Nodup →
      ∀ r ∈ (leaveRoomHandler rid uid now st).2, r.id = rid →
        r.participants ≠ [] := by
  intro rid uid now st hnd r hr hrid
  unfold leaveRoomHandler at hr
  cases h1 : getRoomById rid now st with
  | mk o1 st1 =>
    rw [h1] at hr
    cases o1 with
    | none =>
      simp only at hr
      exact absurd hrid (getRoomById_none_no_room rid now st st1 h1 r hr)
    | some r0 =>
      simp only at hr
      cases h2 : getRoomById rid now (removeParticipantFromRoom rid uid st1) with
      | mk o2 st3 =>
        rw [h2] at hr
        cases o2 with
        | none =>
          simp only at hr
          exact absurd hrid (getRoomById_none_no_room _ _ _ _ h2 r hr)
        | some r2 =>
          by_cases hemp : r2.participants.isEmpty = true
          · simp only [if_pos hemp] at hr
            unfold deleteRoom at hr
            have := (List.mem_filter.mp hr).2
            simp only [bne_iff_ne, ne_eq] at this
            exact absurd hrid this
          · simp only [if_neg hemp] at hr
            obtain ⟨hst3, hfind2⟩ := getRoomById_some _ _ _ _ _ h2
            obtain ⟨hst1, _⟩ := getRoomById_some _ _ _ _ _ h1
            rw [hst3] at hr
            have hnd2 : ((removeParticipantFromRoom rid uid st1).map Room.id).Nodup := by
              rw [roomIds_map_remove, hst1]
              exact hnd
            have huniq := find_room_unique _ hnd2 r hr
            unfold findRoomRowById at hfind2
            rw [hrid] at huniq
            rw [huniq] at hfind2
            have : r = r2 := by
              injection hfind2.symm with he
              exact he.symm
            rw [this]
            intro hcontra
            rw [hcontra] at hemp
            exact hemp rfl

/-- Witness for C6: leaving a two-participant room keeps it with one
participant; the sole remaining empty room case is covered by the deletion
branch (checked here on a one-participant room). -/
theorem claim_C6_witness :
    ((([{ id := "rA", code := 111111, name := "A", createdBy := "u",
          createdAt := 5, expiresAt := none, isPermanent := true,
          participants := ["u"] }] : RoomStore).map Room.id).Nodup) ∧
    (∀ r ∈ (leaveRoomHandler "rA" "u" 100
        [{ id := "rA", code := 111111, name := "A", createdBy := "u",
           createdAt := 5, expiresAt := none, isPermanent := true,
           participants := ["u"] }]).2, r.id = "rA" → r.participants ≠ []) :=
  ⟨by decide,
   claim_C6 "rA" "u" 100
     [{ id := "rA", code := 111111, name := "A", createdBy := "u",
        createdAt := 5, expiresAt := none, isPermanent := true,
        participants := ["u"] }] (by decide)⟩

theorem generateRoomCode_range (rand : Nat) :
    100000 ≤ generateRoomCode rand ∧ generateRoomCode rand ≤ 999999 := by
  unfold generateRoomCode
  have := Nat.mod_lt rand (show 0 < 900000 by norm_num)
  omega

theorem createRoomLoop_code_gen (gen : Nat → Nat) (now : Nat) :
    ∀ (fuel code attempts : Nat) (st : RoomStore),
      (∃ t, code = gen t) →
      ∃ t, (createRoomLoop gen now fuel code attempts st).1 = gen t := by
  intro fuel
  induction fuel with
  | zero =>
    intro code attempts st h
    exact h
  | succ n ih =>
    intro code attempts st h
    unfold createRoomLoop
    cases hres : getRoomByCode code now st with
    | mk o st' =>
      cases o with
      | some r =>
        dsimp only
        by_cases hatt : attempts < 10
        · rw [if_pos hatt]
          exact ih (gen (attempts + 1)) (attempts + 1) st' ⟨attempts + 1, rfl⟩
        · rw [if_neg hatt]
          exact h
      | none =>
        dsimp only
        exact h

/-- C3, counterexample: when every generated code collides with an existing
room's code, `create` does not fail with Conflict — after 10 retries the
still-colliding code is inserted, the UNIQUE constraint on `rooms.code`
throws, and the route answers the generic 500 Internal error. -/
theorem claim_C3_counterexample :
    (createRoomHandler (fun _ => 382193) "r1" "Team" "u1" false 1000
        [{ id := "r0", code := 482193, name := "R", createdBy := "u1",
           createdAt := 1, expiresAt := none, isPermanent := true,
           participants := ["u1"] }]).1.1 = 500 ∧ (500 : Nat) ≠ 409 := by
  constructor
  · rfl
  · decide

/-- C3, amended: the collision loop retries up to 10 times; when creation
succeeds, the assigned code is a 6-digit number that no other stored room
shares (the UNIQUE constraint guarantees this); but when the insert still
collides after the retries are exhausted, the constraint error is answered
as 500 Internal, never as 409 Conflict. -/
theorem claim_C3_amended :
    ∀ (rand : Nat → Nat) (roomId name createdBy : String) (isPermanent : Bool)
      (now : Nat) (st : RoomStore),
      ((∀ rc stF,
        createRoom rand roomId name createdBy isPermanent now st = .ok (rc, stF) →
        100000 ≤ rc.2 ∧ rc.2 ≤ 999999 ∧
        ∀ r ∈ stF, r.id ≠ roomId → r.code ≠ rc.2) ∧
       (∀ e, createRoom rand roomId name createdBy isPermanent now st = .error e →
        createRoomHandler rand roomId name createdBy isPermanent now st =
          ((500, none), st))) := by
  intro rand roomId name createdBy isPermanent now st
  constructor
  · intro rc stF hok
    unfold createRoom at hok
    by_cases hcoll : (((createRoomPick rand now st).2.find?
        (fun r => r.code == (createRoomPick rand now st).1 || r.id == roomId)).isSome) = true
    · rw [if_pos hcoll] at hok
      exact absurd hok (by simp)
    · rw [if_neg hcoll] at hok
      simp only [Except.ok.injEq, Prod.mk.injEq] at hok
      obtain ⟨hrc, hstF⟩ := hok
      have hcode : rc.2 = (createRoomPick rand now st).1 := by rw [← hrc]
      have hgen : ∃ t, (createRoomPick rand now st).1 = generateRoomCode (rand t) := by
        unfold createRoomPick
        exact createRoomLoop_code_gen (fun t => generateRoomCode (rand t)) now 11
          (generateRoomCode (rand 0)) 0 st ⟨0, rfl⟩
      obtain ⟨t, ht⟩ := hgen
      have hrange := generateRoomCode_range (rand t)
      refine ⟨by rw [hcode, ht]; exact hrange.1, by rw [hcode, ht]; exact hrange.2, ?_⟩
      intro r hr hrid
      rw [← hstF] at hr
      rcases List.mem_append.mp hr with hr | hr
      · have hnone : ((createRoomPick rand now st).2.find?
            (fun r => r.code == (createRoomPick rand now st).1 || r.id == roomId)) = none := by
          cases hf : ((createRoomPick rand now st).2.find?
              (fun r => r.code == (createRoomPick rand now st).1 || r.id == roomId)) with
          | none => rfl
          | some x => rw [hf] at hcoll; simp at hcoll
        have := List.find?_eq_none.mp hnone r hr
        simp only [Bool.or_eq_true, beq_iff_eq, not_or] at this
        rw [hcode]
        exact this.1
      · have : r.id = roomId := by
          have : r = { id := roomId, code := (createRoomPick rand now st).1,
                       name := name, createdBy := createdBy, createdAt := now,
                       expiresAt := if isPermanent then none
                         else some (now + 24 * 60 * 60 * 1000),
                       isPermanent := isPermanent, participants := [createdBy] } := by
            simpa using hr
          rw [this]
        exact absurd this hrid
  · intro e herr
    unfold createRoomHandler
    rw [herr]

/-- Witness for C3: the amended theorem at concrete inputs (a successful
create on an empty store; the exhausted-retries case answered 500). -/
theorem claim_C3_witness :
    (100000 ≤ (("r1", 100000) : String × Nat).2 ∧
     (("r1", 100000) : String × Nat).2 ≤ 999999 ∧
     ∀ r ∈ ([{ id := "r1", code := 100000, name := "Team", createdBy := "u1",
               createdAt := 50, expiresAt := none, isPermanent := true,
               participants := ["u1"] }] : RoomStore), r.id ≠ "r1" →
       r.code ≠ (("r1", 100000) : String × Nat).2) ∧
    createRoomHandler (fun _ => 382193) "r1" "Team" "u1" false 1000
        [{ id := "r0", code := 482193, name := "R", createdBy := "u1",
           createdAt := 1, expiresAt := none, isPermanent := true,
           participants := ["u1"] }] =
      ((500, none),
       [{ id := "r0", code := 482193, name := "R", createdBy := "u1",
          createdAt := 1, expiresAt := none, isPermanent := true,
          participants := ["u1"] }]) :=
  ⟨(claim_C3_amended (fun _ => 0) "r1" "Team" "u1" true 50 []).1 ("r1", 100000)
      [{ id := "r1", code := 100000, name := "Team", createdBy := "u1",
         createdAt := 50, expiresAt := none, isPermanent := true,
         participants := ["u1"] }] rfl,
   (claim_C3_amended (fun _ => 382193) "r1" "Team" "u1" false 1000
      [{ id := "r0", code := 482193, name := "R", createdBy := "u1",
         createdAt := 1, expiresAt := none, isPermanent := true,
         participants := ["u1"] }]).2 .uniqueViolation rfl⟩

/-- C1, counterexample: the legacy `InMemoryDB.addFileChunk` (cited by the
claim) computes `isComplete` from an incrementing per-call counter, so a
duplicate resubmission double-counts: with `totalChunks = 2`, submitting
index 0 twice reports `isComplete = true` although only one distinct index
(1 ≠ 2 = totalChunks) is stored. -/
theorem claim_C1_counterexample :
    inMemAddFileChunk "f1" 0 [1] [("f1", ⟨[], 0, 2⟩)] =
      .ok (false, [("f1", ⟨[(0, [1])], 1, 2⟩)]) ∧
    inMemAddFileChunk "f1" 0 [1] [("f1", ⟨[(0, [1])], 1, 2⟩)] =
      .ok (true, [("f1", ⟨[(0, [1])], 2, 2⟩)]) ∧
    ([(0, [1])] : ChunkRows).length = 1 ∧ (1 : Nat) ≠ 2 := by
  refine ⟨rfl, rfl, rfl, by decide⟩

/-- C1, amended: for the SQLite-backed chunk upload the server routes use,
`isComplete` is computed from the distinct stored index count: after any
prehistory of submissions with in-range indices, a chunk upload reports
`isComplete = true` exactly when the number of distinct stored indices
equals `totalChunks`, and that number is the cardinality of the plain set
of submitted and previously stored indices — so duplicate, parallel or
out-of-order submissions cannot change it.  (The legacy `InMemoryDB`
variant instead uses an incrementing per-call counter; see the
counterexample.) -/
theorem claim_C1_amended :
    ∀ (fid : FileId) (st : SQLiteState) (row : UploadRow)
      (subs : List (Nat × Bytes)) (idx : Nat) (b : Bytes),
      WF st →
      lookupUpload fid st = some row →
      (∀ k ∈ chunkKeys (chunksFor fid st), k < row.totalChunks) →
      (∀ q ∈ subs, q.1 < row.totalChunks) →
      idx < row.totalChunks →
      ((addFileChunkCore fid idx b (applyChunksCore fid subs st)).1 =
        decide ((insert idx ((subs.map Prod.fst).toFinset ∪
          (chunkKeys (chunksFor fid st)).toFinset)).card = row.totalChunks) ∧
       (chunksFor fid (addFileChunkState fid idx b (applyChunksCore fid subs st))).length =
        (insert idx ((subs.map Prod.fst).toFinset ∪
          (chunkKeys (chunksFor fid st)).toFinset)).card) := by
  intro fid st row subs idx b hwf hrow hkeys0 hsubs hidx
  obtain ⟨hwfF, hkeys, hlook, _⟩ := applyChunksCore_spec fid subs st hwf
  obtain ⟨n, hlookF⟩ := hlook row hrow
  have hsF : RowsSorted (chunksFor fid (applyChunksCore fid subs st)) :=
    sorted_chunksFor fid _ hwfF
  have hfin : (chunkKeys (chunksFor fid (applyChunksCore fid subs st))).toFinset =
      (subs.map Prod.fst).toFinset ∪ (chunkKeys (chunksFor fid st)).toFinset := by
    ext k
    simp only [List.mem_toFinset, Finset.mem_union]
    exact hkeys k
  have hlen : (upsertChunk idx b (chunksFor fid (applyChunksCore fid subs st))).length =
      (insert idx ((subs.map Prod.fst).toFinset ∪
        (chunkKeys (chunksFor fid st)).toFinset)).card := by
    rw [sorted_length_eq_card _ (rowsSorted_upsert idx b _ hsF),
      upsert_keys_toFinset, hfin]
  have hsub : insert idx ((subs.map Prod.fst).toFinset ∪
      (chunkKeys (chunksFor fid st)).toFinset) ⊆ Finset.range row.totalChunks := by
    intro k hk
    rw [Finset.mem_insert] at hk
    rcases hk with h | h
    · rw [Finset.mem_range]
      omega
    · rw [Finset.mem_union] at h
      rcases h with h | h
      · rw [List.mem_toFinset] at h
        rcases List.mem_map.mp h with ⟨q, hq, hqe⟩
        rw [Finset.mem_range, ← hqe]
        exact hsubs q hq
      · rw [List.mem_toFinset] at h
        rw [Finset.mem_range]
        exact hkeys0 k h
  have hcard : (insert idx ((subs.map Prod.fst).toFinset ∪
      (chunkKeys (chunksFor fid st)).toFinset)).card ≤ row.totalChunks :=
    le_trans (Finset.card_le_card hsub) (le_of_eq (Finset.card_range _))
  constructor
  · rw [addFileChunkCore_fst fid idx b _ _ hlookF]
    rw [hlen]
    rw [decide_eq_decide]
    dsimp only
    omega
  · rw [chunksFor_addState, hlen]

/-- Witness for C1: the amended theorem at a concrete session (total 2,
duplicate submission of index 0, then index 1 completes). -/
theorem claim_C1_witness :
    (addFileChunkCore "f1" 1 [6]
        (applyChunksCore "f1" [(0, [5]), (0, [5])]
          ⟨[("f1", ⟨⟨"a".toList, 1048576, "t".toList⟩, 2, 0⟩)], []⟩)).1 =
      decide ((insert 1 ((([(0, [5]), (0, [5])] : List (Nat × Bytes)).map
        Prod.fst).toFinset ∪
        (chunkKeys (chunksFor "f1"
          (⟨[("f1", ⟨⟨"a".toList, 1048576, "t".toList⟩, 2, 0⟩)], []⟩ :
            SQLiteState))).toFinset)).card = 2) :=
  ((claim_C1_amended "f1"
      ⟨[("f1", ⟨⟨"a".toList, 1048576, "t".toList⟩, 2, 0⟩)], []⟩
      ⟨⟨"a".toList, 1048576, "t".toList⟩, 2, 0⟩
      [(0, [5]), (0, [5])] 1 [6]
      (by intro p hp; exact absurd hp (List.not_mem_nil p))
      rfl
      (by intro k hk; exact absurd hk (List.not_mem_nil k))
      (by decide)
      (by decide))).1

/-- C2, counterexample: the SQLite `getCompleteFile` used by the server has
no missing-index check.  With `received_chunks = 3 = total_chunks` but
stored indices `{0, 2, 5}` (index 1 missing), it returns an assembled
artifact instead of raising an Internal error. -/
theorem claim_C2_counterexample :
    getCompleteFile "f1"
        ⟨[("f1", ⟨⟨"a".toList, 3145728, "t".toList⟩, 3, 3⟩)],
         [("f1", [(0, [1]), (2, [2]), (5, [3])])]⟩ = some [1, 2, 3] ∧
    lookupUpload "f1"
        ⟨[("f1", ⟨⟨"a".toList, 3145728, "t".toList⟩, 3, 3⟩)],
         [("f1", [(0, [1]), (2, [2]), (5, [3])])]⟩ =
      some ⟨⟨"a".toList, 3145728, "t".toList⟩, 3, 3⟩ ∧
    1 ∉ chunkKeys (chunksFor "f1"
        ⟨[("f1", ⟨⟨"a".toList, 3145728, "t".toList⟩, 3, 3⟩)],
         [("f1", [(0, [1]), (2, [2]), (5, [3])])]⟩) := by
  refine ⟨rfl, rfl, by decide⟩

theorem inMemAssemble_ok_present :
    ∀ (l : List Nat) (chunks : ChunkRows) (bs : Bytes),
      inMemAssemble chunks l = .ok bs → ∀ i ∈ l, (chunkGet i chunks).isSome = true := by
  intro l
  induction l with
  | nil => intro chunks bs _ i hi; exact absurd hi (List.not_mem_nil i)
  | cons j rest ih =>
    intro chunks bs h i hi
    unfold inMemAssemble at h
    cases hget : chunkGet j chunks with
    | none => rw [hget] at h; simp at h
    | some c =>
      rw [hget] at h
      cases hrec : inMemAssemble chunks rest with
      | error e => rw [hrec] at h; simp at h
      | ok bs' =>
        rcases List.mem_cons.mp hi with hi | hi
        · rw [hi, hget]; rfl
        · exact ih chunks bs' hrec i hi

/-- C2, amended: for a non-empty file split client-side into
`ceil(size / CHUNK_SIZE)` chunks, once every index `0 .. totalChunks-1` has
been submitted (in any order, duplicates allowed), the SQLite
`getCompleteFile` — which reads the stored chunks in increasing index order
and concatenates them — returns exactly the original bytes.  The
missing-index Internal error exists only in the legacy `InMemoryDB`
variant, proved in the second part; the SQLite implementation performs no
such check (see the counterexample). -/
theorem claim_C2_amended :
    (∀ (file : Bytes) (fid : FileId) (meta : FileMeta) (subs : List Nat)
       (st0 : SQLiteState),
      file ≠ [] → WF st0 → chunksFor fid st0 = [] →
      (∀ i, i ∈ subs ↔ i < totalChunksFor file.length) →
      getCompleteFile fid
        (applyChunksCore fid (subs.map (fun i => (i, clientChunk file i)))
          (initiateFileUpload fid meta (totalChunksFor file.length) st0)) =
        some file) ∧
    (∀ (fid : FileId) (st : InMemState) (u : InMemUpload),
      assocFind fid st = some u →
      u.uploadedChunks = u.totalChunks →
      (∃ i, i < u.totalChunks ∧ chunkGet i u.chunks = none) →
      ∃ e, inMemGetCompleteFile fid st = .error e) := by
  constructor
  · intro file fid meta subs st0 hfile hwf0 hch0 hcov
    have hwfI : WF (initiateFileUpload fid meta (totalChunksFor file.length) st0) :=
      hwf0
    have hchI : chunksFor fid (initiateFileUpload fid meta (totalChunksFor file.length) st0) = [] :=
      hch0
    obtain ⟨hwfF, hkeys, -, hvals⟩ :=
      applyChunksCore_spec fid (subs.map (fun i => (i, clientChunk file i)))
        (initiateFileUpload fid meta (totalChunksFor file.length) st0) hwfI
    have hsF := sorted_chunksFor fid _ hwfF
    have hkeys' : ∀ k,
        k ∈ chunkKeys (chunksFor fid
          (applyChunksCore fid (subs.map (fun i => (i, clientChunk file i)))
            (initiateFileUpload fid meta (totalChunksFor file.length) st0))) ↔
        k < totalChunksFor file.length := by
      intro k
      rw [hkeys k, hchI]
      simp only [chunkKeys, List.map_map, List.map_nil, List.not_mem_nil, or_false]
      constructor
      · intro h
        rcases List.mem_map.mp h with ⟨i, hi, hie⟩
        have : i = k := by simpa using hie
        rw [← this]
        exact (hcov i).mp hi
      · intro h
        exact List.mem_map.mpr ⟨k, (hcov k).mpr h, rfl⟩
    have hvals' : ∀ p ∈ chunksFor fid
        (applyChunksCore fid (subs.map (fun i => (i, clientChunk file i)))
          (initiateFileUpload fid meta (totalChunksFor file.length) st0)),
        p.2 = clientChunk file p.1 := by
      refine hvals (clientChunk file) ?_ ?_
      · rw [hchI]
        intro p hp
        exact absurd hp (List.not_mem_nil p)
      · intro q hq
        rcases List.mem_map.mp hq with ⟨i, hi, hie⟩
        rw [← hie]
    have hcanon := sorted_canonical (clientChunk file)
      (chunksFor fid
        (applyChunksCore fid (subs.map (fun i => (i, clientChunk file i)))
          (initiateFileUpload fid meta (totalChunksFor file.length) st0)))
      0 (totalChunksFor file.length) hsF ?_ ?_
    · have hn1 : 1 ≤ totalChunksFor file.length :=
        one_le_totalChunks file.length (by cases file with
          | nil => exact absurd rfl hfile
          | cons c t => simp)
      unfold getCompleteFile
      rw [hcanon]
      have hne : ((List.range' 0 (totalChunksFor file.length - 0)).map
          (fun i => (i, clientChunk file i))).isEmpty = false := by
        rw [Nat.sub_zero]
        cases htc : totalChunksFor file.length with
        | zero => omega
        | succ m => simp [List.range']
      rw [if_neg (by rw [hne]; decide)]
      rw [List.map_map, Nat.sub_zero, ← List.range_eq_range']
      have hcomp : (Prod.snd ∘ fun i => (i, clientChunk file i)) =
          (fun i => (file.drop (i * CHUNK_SIZE)).take CHUNK_SIZE) := by
        funext i
        rfl
      rw [hcomp, flatten_chunks CHUNK_SIZE (totalChunksFor file.length) file
        (size_le_totalChunks_mul file.length)]
    · intro p hp
      refine ⟨Nat.zero_le _, ?_, hvals' p hp⟩
      have : p.1 ∈ chunkKeys (chunksFor fid
          (applyChunksCore fid (subs.map (fun i => (i, clientChunk file i)))
            (initiateFileUpload fid meta (totalChunksFor file.length) st0))) :=
        List.mem_map.mpr ⟨p, hp, rfl⟩
      exact (hkeys' p.1).mp this
    · intro i _ hi2
      have : i ∈ chunkKeys (chunksFor fid
          (applyChunksCore fid (subs.map (fun i => (i, clientChunk file i)))
            (initiateFileUpload fid meta (totalChunksFor file.length) st0))) :=
        (hkeys' i).mpr hi2
      rcases List.mem_map.mp this with ⟨p, hp, hpe⟩
      exact ⟨p, hp, hpe⟩
  · intro fid st u hfind hcnt hmiss
    unfold inMemGetCompleteFile
    rw [hfind]
    dsimp only
    rw [if_neg (by omega)]
    cases hasm : inMemAssemble u.chunks (List.range u.totalChunks) with
    | error e => exact ⟨e, rfl⟩
    | ok bs =>
      exfalso
      obtain ⟨i, hi, hnone⟩ := hmiss
      have := inMemAssemble_ok_present (List.range u.totalChunks) u.chunks bs hasm i
        (List.mem_range.mpr hi)
      rw [hnone] at this
      simp at this

/-- Witness for C2: the amended theorem at a concrete one-byte file (round
trip) and a concrete in-memory store with a missing chunk. -/
theorem claim_C2_witness :
    getCompleteFile "f"
        (applyChunksCore "f" (([0] : List Nat).map (fun i => (i, clientChunk [7] i)))
          (initiateFileUpload "f" ⟨"a".toList, 1, "t".toList⟩
            (totalChunksFor (List.length ([7] : Bytes))) ⟨[], []⟩)) = some [7] ∧
    (∃ e, inMemGetCompleteFile "f1" [("f1", ⟨[(0, [1])], 2, 2⟩)] = .error e) :=
  ⟨claim_C2_amended.1 [7] "f" ⟨"a".toList, 1, "t".toList⟩ [0] ⟨[], []⟩
      (by decide)
      (by intro p hp; exact absurd hp (List.not_mem_nil p))
      rfl
      (by
        intro i
        rw [show totalChunksFor (List.length ([7] : Bytes)) = 1 from rfl]
        simp [Nat.lt_one_iff]),
   claim_C2_amended.2 "f1" [("f1", ⟨[(0, [1])], 2, 2⟩)] ⟨[(0, [1])], 2, 2⟩
      rfl rfl ⟨1, by decide, rfl⟩⟩
